import Mathlib

/-!
Verification of the `Differentiable` computation-graph core
(`src/kayak/differentiable.py`).

The embedding is shallow and executable.  Nodes are identified by their
construction index (Python object identity).  A `Graph` lists every node's
ordered parent ids together with its two extension points
(`_compute_value` as a pure function of the parents' values,
`_local_grad` as a pure function of the parent slot and the downstream
seed), exactly the interface the core sees.  The mutable per-node caches
`_value` (optional cached array), `_grad` (a dictionary from target node
to array, rendered as an association list) and an instrumentation counter
for `_compute_value` invocations form the state `St`.  Numpy arrays are
one-dimensional integer arrays `List Int`; `shape` is the length.

Every stateful method of the source is a fuel-indexed state-passing
function returning `none` only on fuel exhaustion; the Python code has no
other failure mode on a well-formed graph.
-/

namespace Kayak

/-- One-dimensional numeric arrays (stand-in for numpy ndarrays). -/
abbrev Arr := List Int

/-- `np.ones(self.shape)` for a node whose cached value is `v`. -/
def onesLike (v : Arr) : Arr := List.replicate v.length 1

/-- `np.zeros(self.shape)` for a node whose cached value is `v`. -/
def zerosLike (v : Arr) : Arr := List.replicate v.length 0

/-- Elementwise `+` on same-shape arrays (numpy `grad += contribution`). -/
def addArr (a b : Arr) : Arr := List.zipWith (· + ·) a b

/-- A node: its ordered parent ids (fixed at construction) and the two
extension points every concrete operation kind must supply. -/
structure Node where
  parents : List Nat
  compute : List Arr → Arr
  localGrad : Nat → Arr → Arr

/-- The graph: nodes listed in construction order, so the list index is the
node's identity. -/
structure Graph where
  nodes : List Node

def dfltNode : Node := ⟨[], fun _ => [], fun _ _ => []⟩

def nodeOf (g : Graph) (i : Nat) : Node := g.nodes.getD i dfltNode

def parentsOf (g : Graph) (i : Nat) : List Nat :=
  ((g.nodes.get? i).map Node.parents).getD []

/-- The `_children` back-reference list of node `p`: `__init__` of each node
`c` (constructed in id order) calls `parent._add_child(self, parent_index)`
once per slot, so `p._children` holds exactly the pairs `(c, k)` with
`parents(c)[k] = p`, ordered lexicographically by `(c, k)`. -/
def childrenOf (g : Graph) (p : Nat) : List (Nat × Nat) :=
  (List.range g.nodes.length).flatMap fun c =>
    (List.range (parentsOf g c).length).filterMap fun k =>
      if (parentsOf g c).get? k = some p then some (c, k) else none

/-- Node ids iterated by `for child, _ in self._children`. -/
def childIds (g : Graph) (i : Nat) : List Nat := (childrenOf g i).map Prod.fst

/-- Mutable caches: `_value`, `_grad` and a per-node counter of
`_compute_value` invocations (the spec's "counting stub"). -/
structure St where
  val : Nat → Option Arr
  grd : Nat → List (Nat × Arr)
  cnt : Nat → Nat

/-- Point update of a map. -/
def upd {α : Type} (f : Nat → α) (i : Nat) (a : α) : Nat → α :=
  fun j => if j = i then a else f j

/-- `self._grad[out]` lookup (`out in self._grad` iff this is `some`). -/
def lookupGrad (st : St) (i t : Nat) : Option Arr := (st.grd i).lookup t

/-- `self._grad[out] = w` on a node whose dictionary lacks the key. -/
def addGrd (st : St) (i t : Nat) (w : Arr) : St :=
  { st with grd := upd st.grd i ((t, w) :: st.grd i) }

/-- The state with no caches populated. -/
def initSt : St := ⟨fun _ => none, fun _ => [], fun _ => 0⟩

/-- Left-to-right evaluation of a list of parents' values, threading the
state (what a concrete `_compute_value` does when it reads
`self._parents[k].value` in slot order). -/
def seqVals (rec : Nat → St → Option (Arr × St)) :
    List Nat → St → Option (List Arr × St)
  | [], st => some ([], st)
  | p :: ps, st =>
    match rec p st with
    | none => none
    | some (v, st1) =>
      match seqVals rec ps st1 with
      | none => none
      | some (vs, st2) => some (v :: vs, st2)

/-- The `value` property getter: return the cached value, computing and
storing it first when absent by invoking `_compute_value` (which reads the
parents' `value` recursively).  The counter records the invocation. -/
def value (g : Graph) : Nat → Nat → St → Option (Arr × St)
  | 0, _, _ => none
  | f+1, i, st =>
    match st.val i with
    | some v => some (v, st)
    | none =>
      match g.nodes.get? i with
      | none => none
      | some nd =>
        match seqVals (value g f) nd.parents st with
        | none => none
        | some (vs, st1) =>
          some (nd.compute vs,
            { st1 with
              val := upd st1.val i (some (nd.compute vs)),
              cnt := upd st1.cnt i (st1.cnt i + 1) })

/-- Run a clearing routine over a list of node ids in order. -/
def clearSeq (rec : Nat → St → Option St) : List Nat → St → Option St
  | [], st => some st
  | j :: js, st =>
    match rec j st with
    | none => none
    | some st1 => clearSeq rec js st1

/-- `_clear_grad_cache`: if `self._grad` is non-empty, recursively clear the
parents' gradient caches, then empty this node's. -/
def clearGradCache (g : Graph) : Nat → Nat → St → Option St
  | 0, _, _ => none
  | f+1, i, st =>
    if st.grd i = [] then some st
    else
      match clearSeq (clearGradCache g f) (parentsOf g i) st with
      | none => none
      | some st1 => some { st1 with grd := upd st1.grd i [] }

/-- `_clear_value_cache`: only when a value is cached, recursively clear
every child's value cache, clear this node's gradient cache, and drop the
cached value. -/
def clearValueCache (g : Graph) : Nat → Nat → St → Option St
  | 0, _, _ => none
  | f+1, i, st =>
    match st.val i with
    | none => some st
    | some _ =>
      match clearSeq (clearValueCache g f) (childIds g i) st with
      | none => none
      | some st1 =>
        match clearGradCache g f i st1 with
        | none => none
        | some st2 => some { st2 with val := upd st2.val i none }

/-- The `value` property setter: run the invalidation cascade, then store
the new value directly. -/
def valueSet (g : Graph) (f : Nat) (i : Nat) (v : Arr) (st : St) : Option St :=
  match clearValueCache g f i st with
  | none => none
  | some st1 => some { st1 with val := upd st1.val i (some v) }

/-- `_d_out_d_parent`: `child._local_grad(slot, child._d_out_d_self(out))`. -/
def dOutDParent (rec : Nat → Nat → St → Option (Arr × St)) (g : Graph)
    (c out slot : Nat) (st : St) : Option (Arr × St) :=
  match rec c out st with
  | none => none
  | some (seed, st1) => some ((nodeOf g c).localGrad slot seed, st1)

/-- The accumulation loop `for child, parent_index in self._children:
grad += child._d_out_d_parent(out, parent_index)`. -/
def accum (rec : Nat → Nat → St → Option (Arr × St)) (g : Graph) :
    List (Nat × Nat) → Nat → Arr → St → Option (Arr × St)
  | [], _, acc, st => some (acc, st)
  | cs :: rest, out, acc, st =>
    match dOutDParent rec g cs.1 out cs.2 st with
    | none => none
    | some (contrib, st1) => accum rec g rest out (addArr acc contrib) st1

/-- `_d_out_d_self`: memoized per-target derivative.  On a cache miss the
base case (`self is out`) seeds with ones shaped like `self.shape` (reading
`shape` forces `value`), the recursive case starts from zeros of that shape
and accumulates over the children; the result is stored before being
returned. -/
def dOutDSelf (g : Graph) : Nat → Nat → Nat → St → Option (Arr × St)
  | 0, _, _, _ => none
  | f+1, i, out, st =>
    match lookupGrad st i out with
    | some w => some (w, st)
    | none =>
      if i = out then
        match value g f i st with
        | none => none
        | some (v, st1) =>
          some (onesLike v, addGrd st1 i out (onesLike v))
      else
        match value g f i st with
        | none => none
        | some (v, st1) =>
          match accum (dOutDSelf g f) g (childrenOf g i) out (zerosLike v) st1 with
          | none => none
          | some (gr, st2) => some (gr, addGrd st2 i out gr)

/-- Public `grad`: `self.grad(other) = other._d_out_d_self(self)`. -/
def grad (g : Graph) (f : Nat) (self other : Nat) (st : St) :
    Option (Arr × St) :=
  dOutDSelf g f other self st

/-- Nodes are constructed with already-existing parents, so every parent id
is smaller than the child's id. -/
def Acyclic (g : Graph) : Prop :=
  ∀ i, ∀ p ∈ parentsOf g i, p < i

/-- `RVrel g a b` collects everything the clearing routines can do to the
caches between a pre-state `a` and a post-state `b`: values and gradient
dictionaries are only ever emptied, a node whose value was dropped has had
all its children's values dropped and its own gradient dictionary emptied,
and a node whose gradient dictionary was emptied has had all its parents'
dictionaries emptied. -/
def RVrel (g : Graph) (a b : St) : Prop :=
  (∀ m, b.val m = a.val m ∨ b.val m = none) ∧
  (∀ m, b.grd m = a.grd m ∨ b.grd m = []) ∧
  (∀ m, a.val m ≠ none → b.val m = none → ∀ c ∈ childIds g m, b.val c = none) ∧
  (∀ m, a.grd m ≠ [] → b.grd m = [] → ∀ p ∈ parentsOf g m, b.grd p = []) ∧
  (∀ m, a.val m ≠ none → b.val m = none → b.grd m = []) ∧
  b.cnt = a.cnt

/-- Whenever a node other than the target itself holds a cached gradient
entry for a target, each of its children also holds an entry for that
target. -/
def InvTgt (g : Graph) (st : St) : Prop :=
  ∀ n t, lookupGrad st n t ≠ none → n ≠ t →
    ∀ p ∈ childrenOf g n, lookupGrad st p.1 t ≠ none

/-- The claimed (unamended) invariant of C9: a node with a non-empty
gradient dictionary has children with non-empty dictionaries. -/
def InvOrigAll (g : Graph) (st : St) : Prop :=
  ∀ n, st.grd n ≠ [] → ∀ p ∈ childrenOf g n, st.grd p.1 ≠ []

/-- One public operation of the core: a value write, a value read, a
gradient read, or one of the two internal cache-clearing entry points. -/
def StepK (g : Graph) (st st' : St) : Prop :=
  (∃ f i w, valueSet g f i w st = some st') ∨
  (∃ f i r, value g f i st = some (r, st')) ∨
  (∃ f s o r, grad g f s o st = some (r, st')) ∨
  (∃ f i, clearValueCache g f i st = some st') ∨
  (∃ f i, clearGradCache g f i st = some st')

/-- Specification-side accumulation: the sum over `(child, slot)` pairs of
`child.localGradient(slot, child.derivativeOfTarget(target))`, written
directly from the spec's words (§4.1 `derivativeOfTarget`, recursive
case), over a fixed valuation of node values. -/
def dSpecSum (g : Graph) (rec : Nat → Nat → Option Arr) :
    List (Nat × Nat) → Nat → Arr → Option Arr
  | [], _, acc => some acc
  | cs :: rest, out, acc =>
    match rec cs.1 out with
    | none => none
    | some seed =>
      dSpecSum g rec rest out (addArr acc ((nodeOf g cs.1).localGrad cs.2 seed))

/-- Specification-side `derivativeOfTarget`, written from the spec's words:
ones shaped like the target at the target, otherwise the sum over the
children of the local gradient applied to the child's own derivative. -/
def dSpecD (g : Graph) (vals : Nat → Arr) : Nat → Nat → Nat → Option Arr
  | 0, _, _ => none
  | f+1, i, out =>
    if i = out then some (onesLike (vals i))
    else dSpecSum g (dSpecD g vals f) (childrenOf g i) out (zerosLike (vals i))

/-- Every node's value is cached and given by the valuation `vals`. -/
def ValsEq (vals : Nat → Arr) (st : St) : Prop :=
  ∀ j, st.val j = some (vals j)

/-- Every cached gradient entry for `out` agrees with the spec-side
derivative `dSpecD` at some fuel. -/
def GradsSpec (g : Graph) (vals : Nat → Arr) (out : Nat) (st : St) : Prop :=
  ∀ j w, lookupGrad st j out = some w → ∃ F, dSpecD g vals F j out = some w

/-! ### Concrete instances used to exhibit behaviours -/

/-- A three-node chain A(0) → B(1) → C(2): B consumes A, C consumes B,
with arbitrary extension points. -/
def chainG (f0 fB fC : List Arr → Arr) (l0 lB lC : Nat → Arr → Arr) : Graph :=
  ⟨[⟨[], f0, l0⟩, ⟨[0], fB, lB⟩, ⟨[1], fC, lC⟩]⟩

/-- The concrete chain x(0) → y(1) → z(2) with y = 2·x and z = 3·y. -/
def cg3 : Graph :=
  chainG (fun _ => []) (fun vs => (vs.getD 0 []).map (fun a => 2 * a))
    (fun vs => (vs.getD 0 []).map (fun a => 3 * a))
    (fun _ s => s) (fun _ s => s.map (fun a => 2 * a))
    (fun _ s => s.map (fun a => 3 * a))

/-- Extract the state of a successful stateful result. -/
def resSt (x : Option (Arr × St)) : St := (x.getD ([], initSt)).2

/-- The state after feeding `x := [2]` into the fresh chain. -/
def cgSt0 : St :=
  ⟨fun j => if j = 0 then some [2] else none, fun _ => [], fun _ => 0⟩

/-- A valuation for the chain with `x = [2]`, `y = [4]`, `z = [12]`. -/
def c4vals : Nat → Arr :=
  fun j => if j = 0 then [2] else if j = 1 then [4] else [12]

/-- A state of the chain with every value cached and no gradients. -/
def cgStAll : St := ⟨fun j => some (c4vals j), fun _ => [], fun _ => 0⟩

/-- After `y.grad(x)` from `cgSt0`: node 1 holds a gradient entry while its
child 2 holds none. -/
def cgStBad : St := resSt (grad cg3 9 1 0 cgSt0)

/-- After additionally reading `z.value`: `z`'s value is cached while its
gradient dictionary is empty and its ancestors hold entries. -/
def cgStPre : St := resSt (value cg3 9 2 cgStBad)

/-- After overwriting `z.value` from `cgStPre`. -/
def cgStPost : St := (valueSet cg3 9 2 [7] cgStPre).getD initSt

/-- Result state of overwriting `x` in the fully cached chain. -/
def c1res : St := (valueSet cg3 10 0 [5] cgStAll).getD initSt

/-- A chain state with every gradient dictionary non-empty and `z` cached. -/
def cgStW : St :=
  ⟨fun j => if j = 2 then some [12] else none,
   fun j => if j < 3 then [(2, [1])] else [], fun _ => 0⟩

/-- Result state of overwriting `z` from `cgStW`. -/
def cgStWres : St := (valueSet cg3 9 2 [9] cgStW).getD initSt

/-! ## Basic lemmas about maps, lookups and the derived topology -/

@[simp] theorem upd_self {α : Type} (f : Nat → α) (i : Nat) (a : α) :
    upd f i a i = a := by
  simp [upd]

theorem upd_ne {α : Type} (f : Nat → α) {i j : Nat} (h : j ≠ i) (a : α) :
    upd f i a j = f j := by
  simp [upd, h]

@[simp] theorem lookup_cons_self (t : Nat) (w : Arr) (l : List (Nat × Arr)) :
    ((t, w) :: l).lookup t = some w := by
  simp [List.lookup]

theorem lookup_cons_ne {t k : Nat} (h : t ≠ k) (w : Arr) (l : List (Nat × Arr)) :
    ((k, w) :: l).lookup t = l.lookup t := by
  have hb : (t == k) = false := beq_eq_false_iff_ne.mpr h
  simp [List.lookup, hb]

theorem lookupGrad_ne_nil {st : St} {i t : Nat} (h : lookupGrad st i t ≠ none) :
    st.grd i ≠ [] := by
  intro hnil
  simp [lookupGrad, hnil, List.lookup] at h

theorem mem_childrenOf {g : Graph} {p c k : Nat} :
    (c, k) ∈ childrenOf g p ↔
      c < g.nodes.length ∧ (parentsOf g c).get? k = some p := by
  constructor
  · intro h
    simp only [childrenOf, List.mem_flatMap, List.mem_range,
      List.mem_filterMap] at h
    obtain ⟨c', hc', k', _, hk⟩ := h
    by_cases hp : (parentsOf g c').get? k' = some p
    · rw [if_pos hp] at hk
      cases hk
      exact ⟨hc', hp⟩
    · rw [if_neg hp] at hk
      cases hk
  · rintro ⟨hc, hp⟩
    simp only [childrenOf, List.mem_flatMap, List.mem_range,
      List.mem_filterMap]
    have hk : k < (parentsOf g c).length := by
      by_contra hge
      rw [List.get?_eq_none.mpr (Nat.le_of_not_lt hge)] at hp
      cases hp
    exact ⟨c, hc, k, hk, by rw [if_pos hp]⟩

theorem parent_of_mem_childrenOf {g : Graph} {p : Nat} {cs : Nat × Nat}
    (h : cs ∈ childrenOf g p) : p ∈ parentsOf g cs.1 := by
  obtain ⟨c, k⟩ := cs
  exact List.get?_mem (mem_childrenOf.mp h).2

theorem mem_childIds {g : Graph} {p c : Nat} (h : c ∈ childIds g p) :
    p ∈ parentsOf g c := by
  obtain ⟨cs, hcs, rfl⟩ := List.mem_map.mp h
  exact parent_of_mem_childrenOf hcs

/-! ## Unfolding equations at a successor fuel -/

theorem value_succ (g : Graph) (f i : Nat) (st : St) :
    value g (f+1) i st =
      match st.val i with
      | some v => some (v, st)
      | none =>
        match g.nodes.get? i with
        | none => none
        | some nd =>
          match seqVals (value g f) nd.parents st with
          | none => none
          | some (vs, st1) =>
            some (nd.compute vs,
              { st1 with
                val := upd st1.val i (some (nd.compute vs)),
                cnt := upd st1.cnt i (st1.cnt i + 1) }) := rfl

theorem dods_succ (g : Graph) (f i out : Nat) (st : St) :
    dOutDSelf g (f+1) i out st =
      match lookupGrad st i out with
      | some w => some (w, st)
      | none =>
        if i = out then
          match value g f i st with
          | none => none
          | some (v, st1) =>
            some (onesLike v, addGrd st1 i out (onesLike v))
        else
          match value g f i st with
          | none => none
          | some (v, st1) =>
            match accum (dOutDSelf g f) g (childrenOf g i) out (zerosLike v) st1 with
            | none => none
            | some (gr, st2) => some (gr, addGrd st2 i out gr) := rfl

/-! ## Generic lemmas about the sequencing combinators -/

theorem seqVals_rel {rec : Nat → St → Option (Arr × St)} (R : St → St → Prop)
    (hrefl : ∀ s, R s s)
    (htrans : ∀ a b c, R a b → R b c → R a c)
    {ps : List Nat}
    (hrec : ∀ p st0 v st1, p ∈ ps → rec p st0 = some (v, st1) → R st0 st1) :
    ∀ {st vs st'}, seqVals rec ps st = some (vs, st') → R st st' := by
  induction ps with
  | nil =>
    intro st vs st' h
    cases h
    exact hrefl st
  | cons p ps IH =>
    intro st vs st' h
    simp only [seqVals] at h
    split at h
    · cases h
    · next v st1 hp =>
      split at h
      · cases h
      · next vs2 st2 hs =>
        cases h
        exact htrans _ _ _ (hrec p st v st1 (List.mem_cons_self p ps) hp)
          (IH (fun q a w b hq => hrec q a w b (List.mem_cons_of_mem p hq)) hs)

theorem clearSeq_spec {rec : Nat → St → Option St} (R : St → St → Prop)
    (T : Nat → St → Prop)
    (hrefl : ∀ s, R s s)
    (htrans : ∀ a b c, R a b → R b c → R a c)
    (hT : ∀ j a b, R a b → T j a → T j b)
    {ns : List Nat}
    (hrec : ∀ j a b, j ∈ ns → rec j a = some b → R a b ∧ T j b) :
    ∀ {st st'}, clearSeq rec ns st = some st' →
      R st st' ∧ ∀ j ∈ ns, T j st' := by
  induction ns with
  | nil =>
    intro st st' h
    cases h
    exact ⟨hrefl st, by simp⟩
  | cons n ns IH =>
    intro st st' h
    simp only [clearSeq] at h
    split at h
    · cases h
    · next st1 hn =>
      obtain ⟨h1, hTn⟩ := hrec n st st1 (List.mem_cons_self n ns) hn
      obtain ⟨h2, hAll⟩ :=
        IH (fun j a b hj => hrec j a b (List.mem_cons_of_mem n hj)) h
      refine ⟨htrans _ _ _ h1 h2, ?_⟩
      intro j hj
      rcases List.mem_cons.mp hj with rfl | hj
      · exact hT j _ _ h2 hTn
      · exact hAll j hj

theorem accum_spec {rec : Nat → Nat → St → Option (Arr × St)} {g : Graph}
    {out : Nat} (R : St → St → Prop) (T : Nat → St → Prop)
    (hrefl : ∀ s, R s s)
    (htrans : ∀ a b c, R a b → R b c → R a c)
    (hT : ∀ j a b, R a b → T j a → T j b)
    {L : List (Nat × Nat)}
    (hrec : ∀ cs a r0 b, cs ∈ L → rec cs.1 out a = some (r0, b) →
      R a b ∧ T cs.1 b) :
    ∀ {acc st r st'}, accum rec g L out acc st = some (r, st') →
      R st st' ∧ ∀ cs ∈ L, T cs.1 st' := by
  induction L with
  | nil =>
    intro acc st r st' h
    cases h
    exact ⟨hrefl st, by simp⟩
  | cons cs L IH =>
    intro acc st r st' h
    simp only [accum, dOutDParent] at h
    split at h
    · cases h
    · next contrib st1 hc =>
      split at hc
      · cases hc
      · next seed st0 hr =>
        cases hc
        obtain ⟨h1, hTc⟩ := hrec cs st seed _ (List.mem_cons_self cs L) hr
        obtain ⟨h2, hAll⟩ :=
          IH (fun ds a r0 b hd => hrec ds a r0 b (List.mem_cons_of_mem cs hd)) h
        refine ⟨htrans _ _ _ h1 h2, ?_⟩
        intro ds hd
        rcases List.mem_cons.mp hd with rfl | hd
        · exact hT ds.1 _ _ h2 hTc
        · exact hAll ds hd

/-! ## The effect of the invalidation cascade -/

theorem RVrel_refl (g : Graph) (s : St) : RVrel g s s := by
  refine ⟨fun m => Or.inl rfl, fun m => Or.inl rfl, ?_, ?_, ?_, rfl⟩
  · intro m hne hnone
    exact absurd hnone hne
  · intro m hne hnil
    exact absurd hnil hne
  · intro m hne hnone
    exact absurd hnone hne

theorem RVrel_trans (g : Graph) (a b c : St)
    (hab : RVrel g a b) (hbc : RVrel g b c) : RVrel g a c := by
  obtain ⟨vm1, gm1, pv1, pg1, vg1, c1⟩ := hab
  obtain ⟨vm2, gm2, pv2, pg2, vg2, c2⟩ := hbc
  refine ⟨?_, ?_, ?_, ?_, ?_, c2.trans c1⟩
  · intro m
    rcases vm2 m with h2 | h2
    · rw [h2]; exact vm1 m
    · exact Or.inr h2
  · intro m
    rcases gm2 m with h2 | h2
    · rw [h2]; exact gm1 m
    · exact Or.inr h2
  · intro m hne hnone ch hch
    by_cases hb : b.val m = none
    · have := pv1 m hne hb ch hch
      rcases vm2 ch with h2 | h2
      · rw [h2, this]
      · exact h2
    · exact pv2 m hb hnone ch hch
  · intro m hne hnil p hp
    by_cases hb : b.grd m = []
    · have := pg1 m hne hb p hp
      rcases gm2 p with h2 | h2
      · rw [h2, this]
      · exact h2
    · exact pg2 m hb hnil p hp
  · intro m hne hnone
    by_cases hb : b.val m = none
    · have := vg1 m hne hb
      rcases gm2 m with h2 | h2
      · rw [h2, this]
      · exact h2
    · exact vg2 m hb hnone

/-- A value that is `none` stays `none` across an `RVrel` transition. -/
theorem RVrel_val_none {g : Graph} {a b : St} (h : RVrel g a b) {m : Nat}
    (hm : a.val m = none) : b.val m = none := by
  rcases h.1 m with h1 | h1
  · rw [h1, hm]
  · exact h1

/-- An empty gradient dictionary stays empty across an `RVrel` transition. -/
theorem RVrel_grd_nil {g : Graph} {a b : St} (h : RVrel g a b) {m : Nat}
    (hm : a.grd m = []) : b.grd m = [] := by
  rcases h.2.1 m with h1 | h1
  · rw [h1, hm]
  · exact h1

/-- What `_clear_grad_cache(i)` does: an `RVrel` step leaving values and
counters untouched, after which node `i`'s gradient dictionary is empty. -/
theorem clearGradCache_spec (g : Graph) :
    ∀ (f : Nat) {i : Nat} {st st' : St},
      clearGradCache g f i st = some st' →
      (RVrel g st st' ∧ st'.val = st.val) ∧ st'.grd i = [] := by
  intro f
  induction f with
  | zero => intro i st st' h; cases h
  | succ f IH =>
    intro i st st' h
    simp only [clearGradCache] at h
    split at h
    · next hnil =>
      cases h
      exact ⟨⟨RVrel_refl g st, rfl⟩, hnil⟩
    · next hne =>
      split at h
      · cases h
      · next st1 hseq =>
        cases h
        obtain ⟨⟨hR, hVal⟩, hAll⟩ := clearSeq_spec
          (fun a b => RVrel g a b ∧ b.val = a.val)
          (fun j s => s.grd j = [])
          (fun s => ⟨RVrel_refl g s, rfl⟩)
          (fun a b c hab hbc => ⟨RVrel_trans g a b c hab.1 hbc.1,
            hbc.2.trans hab.2⟩)
          (fun j a b hab hj => RVrel_grd_nil hab.1 hj)
          (fun j a b _ hj => IH hj)
          hseq
        obtain ⟨vm, gm, -, pg, -, hc⟩ := hR
        refine ⟨⟨⟨?_, ?_, ?_, ?_, ?_, hc⟩, hVal⟩, upd_self _ _ _⟩
        · intro m
          exact Or.inl (congrFun hVal m)
        · intro m
          by_cases hm : m = i
          · subst hm
            exact Or.inr (upd_self _ _ _)
          · rw [show ({ st1 with grd := upd st1.grd i [] } : St).grd m
              = st1.grd m from upd_ne _ hm _]
            exact gm m
        · intro m hne0 hnone
          rw [show ({ st1 with grd := upd st1.grd i [] } : St).val = st1.val
            from rfl, hVal] at hnone
          exact absurd hnone hne0
        · intro m hne0 hnil p hp
          by_cases hpi : p = i
          · rw [hpi]
            exact upd_self _ _ _
          · rw [show ({ st1 with grd := upd st1.grd i [] } : St).grd p
              = st1.grd p from upd_ne _ hpi _]
            by_cases hm : m = i
            · rw [hm] at hp
              exact hAll p hp
            · rw [show ({ st1 with grd := upd st1.grd i [] } : St).grd m
                = st1.grd m from upd_ne _ hm _] at hnil
              exact pg m hne0 hnil p hp
        · intro m hne0 hnone
          rw [show ({ st1 with grd := upd st1.grd i [] } : St).val = st1.val
            from rfl, hVal] at hnone
          exact absurd hnone hne0

/-- What `_clear_value_cache(i)` does: an `RVrel` step after which node
`i`'s value is uncached, and — when a value was cached, so the cascade
actually ran — node `i`'s gradient dictionary is empty. -/
theorem clearValueCache_spec (g : Graph) :
    ∀ (f : Nat) {i : Nat} {st st' : St},
      clearValueCache g f i st = some st' →
      RVrel g st st' ∧ st'.val i = none ∧
        (st.val i ≠ none → st'.grd i = []) := by
  intro f
  induction f with
  | zero => intro i st st' h; cases h
  | succ f IH =>
    intro i st st' h
    simp only [clearValueCache] at h
    split at h
    · next hnone =>
      cases h
      exact ⟨RVrel_refl g st, hnone, fun hne => absurd hnone hne⟩
    · next v hv =>
      split at h
      · cases h
      · next st1 hseq =>
        split at h
        · cases h
        · next st2 hgr =>
          cases h
          obtain ⟨hR1, hChild⟩ := clearSeq_spec
            (RVrel g)
            (fun j s => s.val j = none)
            (RVrel_refl g)
            (RVrel_trans g)
            (fun j a b hab hj => RVrel_val_none hab hj)
            (fun j a b _ hj => ⟨(IH hj).1, (IH hj).2.1⟩)
            hseq
          obtain ⟨⟨hR2, hVal2⟩, hGrd2⟩ := clearGradCache_spec g f hgr
          have hR12 : RVrel g st st2 := RVrel_trans g _ _ _ hR1 hR2
          refine ⟨⟨?_, ?_, ?_, ?_, ?_, ?_⟩, upd_self _ _ _, fun _ => hGrd2⟩
          · intro m
            by_cases hm : m = i
            · rw [hm]
              exact Or.inr (upd_self _ _ _)
            · rw [show ({ st2 with val := upd st2.val i none } : St).val m
                = st2.val m from upd_ne _ hm _]
              exact hR12.1 m
          · intro m
            exact hR12.2.1 m
          · intro m hne hnone c hc
            by_cases hci : c = i
            · rw [hci]
              exact upd_self _ _ _
            · rw [show ({ st2 with val := upd st2.val i none } : St).val c
                = st2.val c from upd_ne _ hci _]
              by_cases hm : m = i
              · rw [hm] at hc
                rw [congrFun hVal2 c]
                exact hChild c hc
              · rw [show ({ st2 with val := upd st2.val i none } : St).val m
                  = st2.val m from upd_ne _ hm _] at hnone
                exact hR12.2.2.1 m hne hnone c hc
          · intro m hne hnil p hp
            exact hR12.2.2.2.1 m hne hnil p hp
          · intro m hne hnone
            by_cases hm : m = i
            · rw [hm]
              exact hGrd2
            · rw [show ({ st2 with val := upd st2.val i none } : St).val m
                = st2.val m from upd_ne _ hm _] at hnone
              exact hR12.2.2.2.2.1 m hne hnone
          · exact hR12.2.2.2.2.2

/-- The setter decomposes into the cascade followed by the raw store. -/
theorem valueSet_decomp {g : Graph} {f i : Nat} {v : Arr} {st st' : St}
    (h : valueSet g f i v st = some st') :
    ∃ st1, clearValueCache g f i st = some st1 ∧
      st' = { st1 with val := upd st1.val i (some v) } := by
  simp only [valueSet] at h
  split at h
  · cases h
  · next st1 h1 =>
    cases h
    exact ⟨st1, h1, rfl⟩

/-- Walking up a parent chain whose links all had non-empty gradient
dictionaries: once the chain's head is cleared, a transition that only
empties dictionaries and satisfies the parents-also-cleared property has
cleared the whole chain. -/
theorem grd_clear_chain (g : Graph) (st st' : St)
    (hPG : ∀ m, st.grd m ≠ [] → st'.grd m = [] →
      ∀ p ∈ parentsOf g m, st'.grd p = []) :
    ∀ (l : List Nat), List.Chain' (fun a b => b ∈ parentsOf g a) l →
      (∀ m ∈ l.dropLast, st.grd m ≠ []) →
      (∀ n, l.head? = some n → st'.grd n = []) →
      ∀ m ∈ l, st'.grd m = [] := by
  intro l
  induction l with
  | nil =>
    intro _ _ _ m hm
    cases hm
  | cons a l IH =>
    intro hch hdrop hhead m hm
    have ha : st'.grd a = [] := hhead a rfl
    rcases List.mem_cons.mp hm with rfl | hm
    · exact ha
    · cases l with
      | nil => cases hm
      | cons b t =>
        have hrel : b ∈ parentsOf g a ∧
            List.Chain' (fun a b => b ∈ parentsOf g a) (b :: t) :=
          List.chain'_cons.mp hch
        have haDrop : st.grd a ≠ [] := by
          apply hdrop
          rw [List.dropLast_cons₂]
          exact List.mem_cons_self a _
        have hb : st'.grd b = [] := hPG a haDrop ha b hrel.1
        refine IH hrel.2 ?_ ?_ m hm
        · intro m2 hm2
          apply hdrop
          rw [List.dropLast_cons₂]
          exact List.mem_cons_of_mem a hm2
        · intro n hn
          cases hn
          exact hb

/-! ## The value getter -/

/-- A `value` read never uncaches a value, never touches any gradient
dictionary, and caches the value it returns. -/
theorem value_spec (g : Graph) :
    ∀ (f : Nat) {i : Nat} {st : St} {v : Arr} {st' : St},
      value g f i st = some (v, st') →
      (∀ m w, st.val m = some w → st'.val m = some w) ∧
        st'.grd = st.grd ∧ st'.val i = some v := by
  intro f
  induction f with
  | zero => intro i st v st' h; cases h
  | succ f IH =>
    intro i st v st' h
    simp only [value] at h
    split at h
    · next w hw =>
      cases h
      exact ⟨fun m w2 hw2 => hw2, rfl, hw⟩
    · next hnone =>
      split at h
      · cases h
      · next nd hnd =>
        split at h
        · cases h
        · next vs st1 hseq =>
          cases h
          have hR := seqVals_rel
            (fun a b => (∀ m w, a.val m = some w → b.val m = some w) ∧
              b.grd = a.grd)
            (fun s => ⟨fun m w hw => hw, rfl⟩)
            (fun a b c hab hbc =>
              ⟨fun m w hw => hbc.1 m w (hab.1 m w hw), hbc.2.trans hab.2⟩)
            (fun p st0 w st2 _ hp => ⟨(IH hp).1, (IH hp).2.1⟩)
            hseq
          refine ⟨?_, hR.2, upd_self _ _ _⟩
          intro m w hw
          have hmi : m ≠ i := by
            intro hmi
            rw [hmi, hnone] at hw
            cases hw
          rw [show ({ st1 with
              val := upd st1.val i (some (nd.compute vs)),
              cnt := upd st1.cnt i (st1.cnt i + 1) } : St).val m
            = st1.val m from upd_ne _ hmi _]
          exact hR.1 m w hw

theorem parentsOf_eq_of_get {g : Graph} {j : Nat} {nd : Node}
    (h : g.nodes.get? j = some nd) : parentsOf g j = nd.parents := by
  unfold parentsOf
  rw [h]
  rfl

/-- On an acyclic graph, reading node `j`'s value touches no cache slot of
a node with an id larger than `j`. -/
theorem value_touch (g : Graph) (hacy : Acyclic g) :
    ∀ (f : Nat) {j : Nat} {st : St} {v : Arr} {st' : St},
      value g f j st = some (v, st') →
      ∀ m, j < m → st'.val m = st.val m ∧ st'.cnt m = st.cnt m := by
  intro f
  induction f with
  | zero => intro j st v st' h; cases h
  | succ f IH =>
    intro j st v st' h
    simp only [value] at h
    split at h
    · next w hw =>
      cases h
      exact fun m _ => ⟨rfl, rfl⟩
    · next hnone =>
      split at h
      · cases h
      · next nd hnd =>
        split at h
        · cases h
        · next vs st1 hseq =>
          cases h
          have hpar : parentsOf g j = nd.parents := parentsOf_eq_of_get hnd
          have hR := seqVals_rel
            (fun a b => ∀ m, j < m →
              b.val m = a.val m ∧ b.cnt m = a.cnt m)
            (fun s m _ => ⟨rfl, rfl⟩)
            (fun a b c hab hbc m hm =>
              ⟨(hbc m hm).1.trans (hab m hm).1,
               (hbc m hm).2.trans (hab m hm).2⟩)
            (fun p st0 w st2 hp hcall => by
              intro m hm
              have hpj : p < j := by
                apply hacy j
                rw [hpar]
                exact hp
              exact IH hcall m (hpj.trans hm))
            hseq
          intro m hm
          have hmj : m ≠ j := Nat.ne_of_gt hm
          constructor
          · rw [show ({ st1 with
                val := upd st1.val j (some (nd.compute vs)),
                cnt := upd st1.cnt j (st1.cnt j + 1) } : St).val m
              = st1.val m from upd_ne _ hmj _]
            exact (hR m hm).1
          · rw [show ({ st1 with
                val := upd st1.val j (some (nd.compute vs)),
                cnt := upd st1.cnt j (st1.cnt j + 1) } : St).cnt m
              = st1.cnt m from upd_ne _ hmj _]
            exact (hR m hm).2

/-- On an acyclic graph a `value` read leaves the `_compute_value` counter
of every already-cached node alone, leaves the counter of every node that
stays uncached alone, and bumps the counter of every node it computes by
exactly one.  This is the "at most once per cache epoch" accounting. -/
theorem value_cnt (g : Graph) (hacy : Acyclic g) :
    ∀ (f : Nat) {j : Nat} {st : St} {v : Arr} {st' : St},
      value g f j st = some (v, st') →
      (∀ m w, st.val m = some w → st'.cnt m = st.cnt m) ∧
        (∀ m, st.val m = none → st'.val m = none → st'.cnt m = st.cnt m) ∧
        (∀ m, st.val m = none → st'.val m ≠ none →
          st'.cnt m = st.cnt m + 1) := by
  intro f
  induction f with
  | zero => intro j st v st' h; cases h
  | succ f IH =>
    intro j st v st' h
    simp only [value] at h
    split at h
    · next w hw =>
      cases h
      refine ⟨fun m w2 _ => rfl, fun m _ _ => rfl, fun m h1 h2 => absurd h1 h2⟩
    · next hnone =>
      split at h
      · cases h
      · next nd hnd =>
        split at h
        · cases h
        · next vs st1 hseq =>
          cases h
          have hpar : parentsOf g j = nd.parents := parentsOf_eq_of_get hnd
          have hR := seqVals_rel
            (fun a b =>
              (∀ m w, a.val m = some w → b.val m = some w) ∧
              (∀ m w, a.val m = some w → b.cnt m = a.cnt m) ∧
              (∀ m, a.val m = none → b.val m = none → b.cnt m = a.cnt m) ∧
              (∀ m, a.val m = none → b.val m ≠ none →
                b.cnt m = a.cnt m + 1) ∧
              b.val j = a.val j ∧ b.cnt j = a.cnt j)
            (fun s => ⟨fun m w hw => hw, fun m w _ => rfl,
              fun m _ _ => rfl, fun m h1 h2 => absurd h1 h2, rfl, rfl⟩)
            (fun a b c hab hbc => by
              obtain ⟨s1, c1, n1, o1, j1, k1⟩ := hab
              obtain ⟨s2, c2, n2, o2, j2, k2⟩ := hbc
              refine ⟨fun m w hw => s2 m w (s1 m w hw), ?_, ?_, ?_,
                j2.trans j1, k2.trans k1⟩
              · intro m w hw
                exact (c2 m w (s1 m w hw)).trans (c1 m w hw)
              · intro m h1 h2
                cases hb : b.val m with
                | none => exact (n2 m hb h2).trans (n1 m h1 hb)
                | some u =>
                  have hs := s2 m u hb
                  rw [h2] at hs
                  cases hs
              · intro m h1 h2
                cases hb : b.val m with
                | none =>
                  rw [(o2 m hb h2), (n1 m h1 hb)]
                | some u =>
                  exact (c2 m u hb).trans (o1 m h1 (by simp [hb]))
            )
            (fun p st0 w st2 hp hcall => by
              have hpj : p < j := by
                apply hacy j
                rw [hpar]
                exact hp
              obtain ⟨cS, cN, cO⟩ := IH hcall
              have hmono := (value_spec g f hcall).1
              have htch := value_touch g hacy f hcall j hpj
              exact ⟨hmono, cS, cN, cO, htch.1, htch.2⟩)
            hseq
          obtain ⟨hmono, cS, cN, cO, hj1, hj2⟩ := hR
          refine ⟨?_, ?_, ?_⟩
          · intro m w hw
            have hmj : m ≠ j := by
              intro he
              rw [he, hnone] at hw
              cases hw
            rw [show ({ st1 with
                val := upd st1.val j (some (nd.compute vs)),
                cnt := upd st1.cnt j (st1.cnt j + 1) } : St).cnt m
              = st1.cnt m from upd_ne _ hmj _]
            exact cS m w hw
          · intro m h1 h2
            have hmj : m ≠ j := by
              intro he
              rw [he] at h2
              rw [show ({ st1 with
                  val := upd st1.val j (some (nd.compute vs)),
                  cnt := upd st1.cnt j (st1.cnt j + 1) } : St).val j
                = some (nd.compute vs) from upd_self _ _ _] at h2
              cases h2
            rw [show ({ st1 with
                val := upd st1.val j (some (nd.compute vs)),
                cnt := upd st1.cnt j (st1.cnt j + 1) } : St).cnt m
              = st1.cnt m from upd_ne _ hmj _]
            rw [show ({ st1 with
                val := upd st1.val j (some (nd.compute vs)),
                cnt := upd st1.cnt j (st1.cnt j + 1) } : St).val m
              = st1.val m from upd_ne _ hmj _] at h2
            exact cN m h1 h2
          · intro m h1 h2
            by_cases hmj : m = j
            · rw [hmj]
              rw [show ({ st1 with
                  val := upd st1.val j (some (nd.compute vs)),
                  cnt := upd st1.cnt j (st1.cnt j + 1) } : St).cnt j
                = st1.cnt j + 1 from upd_self _ _ _, hj2]
            · rw [show ({ st1 with
                  val := upd st1.val j (some (nd.compute vs)),
                  cnt := upd st1.cnt j (st1.cnt j + 1) } : St).cnt m
                = st1.cnt m from upd_ne _ hmj _]
              rw [show ({ st1 with
                  val := upd st1.val j (some (nd.compute vs)),
                  cnt := upd st1.cnt j (st1.cnt j + 1) } : St).val m
                = st1.val m from upd_ne _ hmj _] at h2
              exact cO m h1 h2

/-! ## The reverse-mode pass -/

theorem lookupGrad_addGrd_self (st : St) (i o : Nat) (w : Arr) :
    lookupGrad (addGrd st i o w) i o = some w := by
  simp only [lookupGrad, addGrd]
  rw [show (upd st.grd i ((o, w) :: st.grd i)) i = (o, w) :: st.grd i
    from upd_self _ _ _]
  exact lookup_cons_self o w _

theorem lookupGrad_addGrd_val (st : St) (i o : Nat) (w : Arr) :
    (addGrd st i o w).val = st.val := rfl

theorem lookupGrad_addGrd_mono {st : St} {m t : Nat} (i o : Nat) (w : Arr)
    (h : lookupGrad st m t ≠ none) :
    lookupGrad (addGrd st i o w) m t ≠ none := by
  simp only [lookupGrad, addGrd] at *
  by_cases hm : m = i
  · rw [hm]
    rw [show (upd st.grd i ((o, w) :: st.grd i)) i = (o, w) :: st.grd i
      from upd_self _ _ _]
    by_cases ht : t = o
    · rw [ht, lookup_cons_self]
      exact fun he => Option.noConfusion he
    · rw [lookup_cons_ne ht]
      rw [hm] at h
      exact h
  · rw [show (upd st.grd i ((o, w) :: st.grd i)) m = st.grd m
      from upd_ne _ hm _]
    exact h

/-- Decompose a lookup in a state with one freshly stored entry. -/
theorem lookupGrad_addGrd_cases {st : St} {m t i o : Nat} {w : Arr}
    (h : lookupGrad (addGrd st i o w) m t ≠ none) :
    (m = i ∧ t = o) ∨ lookupGrad st m t ≠ none := by
  simp only [lookupGrad, addGrd] at *
  by_cases hm : m = i
  · by_cases ht : t = o
    · exact Or.inl ⟨hm, ht⟩
    · refine Or.inr ?_
      rw [hm] at h ⊢
      rw [show (upd st.grd i ((o, w) :: st.grd i)) i = (o, w) :: st.grd i
        from upd_self _ _ _, lookup_cons_ne ht] at h
      exact h
  · refine Or.inr ?_
    rw [show (upd st.grd i ((o, w) :: st.grd i)) m = st.grd m
      from upd_ne _ hm _] at h
    exact h

/-- `_d_out_d_self` never uncaches a value and never deletes a gradient
entry. -/
theorem dods_mono (g : Graph) :
    ∀ (f : Nat) {i out : Nat} {st : St} {r : Arr} {st' : St},
      dOutDSelf g f i out st = some (r, st') →
      (∀ m w, st.val m = some w → st'.val m = some w) ∧
        (∀ m t, lookupGrad st m t ≠ none → lookupGrad st' m t ≠ none) := by
  intro f
  induction f with
  | zero => intro i out st r st' h; cases h
  | succ f IH =>
    intro i out st r st' h
    simp only [dOutDSelf] at h
    split at h
    · next w hw =>
      cases h
      exact ⟨fun m w2 hw2 => hw2, fun m t ht => ht⟩
    · next hmiss =>
      split at h
      · -- base case: i = out
        split at h
        · cases h
        · next v st1 hval =>
          cases h
          obtain ⟨hvm, hgr, -⟩ := value_spec g f hval
          refine ⟨?_, ?_⟩
          · intro m w hw
            exact hvm m w hw
          · intro m t ht
            apply lookupGrad_addGrd_mono
            simp only [lookupGrad, hgr]
            exact ht
      · -- recursive case
        split at h
        · cases h
        · next v st1 hval =>
          split at h
          · cases h
          · next gr st2 hacc =>
            cases h
            obtain ⟨hvm, hgr, -⟩ := value_spec g f hval
            obtain ⟨hRacc, -⟩ := accum_spec
              (fun a b =>
                (∀ m w, a.val m = some w → b.val m = some w) ∧
                (∀ m t, lookupGrad a m t ≠ none → lookupGrad b m t ≠ none))
              (fun _ _ => True)
              (fun s => ⟨fun m w hw => hw, fun m t ht => ht⟩)
              (fun a b c hab hbc =>
                ⟨fun m w hw => hbc.1 m w (hab.1 m w hw),
                 fun m t ht => hbc.2 m t (hab.2 m t ht)⟩)
              (fun _ _ _ _ _ => trivial)
              (fun cs a r0 b _ hcall => ⟨IH hcall, trivial⟩)
              hacc
            refine ⟨?_, ?_⟩
            · intro m w hw
              exact hRacc.1 m w (hvm m w hw)
            · intro m t ht
              apply lookupGrad_addGrd_mono
              apply hRacc.2
              simp only [lookupGrad, hgr]
              exact ht

/-- `_d_out_d_self` stores its result under the target key before
returning it (`self._grad[out] = grad; return self._grad[out]`). -/
theorem dods_stores {g : Graph} {f i out : Nat} {st : St} {r : Arr}
    {st' : St} (h : dOutDSelf g f i out st = some (r, st')) :
    lookupGrad st' i out = some r := by
  cases f with
  | zero => cases h
  | succ f =>
    simp only [dOutDSelf] at h
    split at h
    · next w hw =>
      cases h
      exact hw
    · next hmiss =>
      split at h
      · split at h
        · cases h
        · next v st1 hval =>
          cases h
          exact lookupGrad_addGrd_self _ _ _ _
      · split at h
        · cases h
        · next v st1 hval =>
          split at h
          · cases h
          · next gr st2 hacc =>
            cases h
            exact lookupGrad_addGrd_self _ _ _ _

/-! ## The per-target gradient-cache invariant -/

theorem invTgt_of_grd_eq {g : Graph} {st st' : St} (h : st'.grd = st.grd)
    (hI : InvTgt g st) : InvTgt g st' := by
  intro n t hl hne p hp
  simp only [lookupGrad, h] at hl ⊢
  exact hI n t hl hne p hp

/-- A transition that only empties gradient dictionaries and empties the
parents of every dictionary it empties preserves the invariant. -/
theorem invTgt_of_rvrel {g : Graph} {st st' : St} (h : RVrel g st st')
    (hI : InvTgt g st) : InvTgt g st' := by
  intro n t hl hne p hp
  rcases h.2.1 n with hgn | hgn
  · have hl0 : lookupGrad st n t ≠ none := by
      simp only [lookupGrad, hgn] at hl
      exact hl
    have hchild : lookupGrad st p.1 t ≠ none := hI n t hl0 hne p hp
    rcases h.2.1 p.1 with hgp | hgp
    · simp only [lookupGrad, hgp]
      exact hchild
    · exfalso
      have hpn : st'.grd n = [] :=
        h.2.2.2.1 p.1 (lookupGrad_ne_nil hchild) hgp n
          (parent_of_mem_childrenOf hp)
      simp only [lookupGrad, hpn, List.lookup] at hl
      exact hl rfl
  · exfalso
    simp only [lookupGrad, hgn, List.lookup] at hl
    exact hl rfl

/-- `_d_out_d_self` preserves the per-target invariant and establishes
entries for every child it visited. -/
theorem dods_invTgt (g : Graph) :
    ∀ (f : Nat) {i out : Nat} {st : St} {r : Arr} {st' : St},
      InvTgt g st → dOutDSelf g f i out st = some (r, st') →
      InvTgt g st' := by
  intro f
  induction f with
  | zero => intro i out st r st' _ h; cases h
  | succ f IH =>
    intro i out st r st' hI h
    simp only [dOutDSelf] at h
    split at h
    · next w hw =>
      cases h
      exact hI
    · next hmiss =>
      split at h
      · next heq =>
        -- base case: i = out; store the seed under key out = i
        split at h
        · cases h
        · next v st1 hval =>
          cases h
          have hI1 : InvTgt g st1 := invTgt_of_grd_eq (value_spec g f hval).2.1 hI
          intro n t hl hne p hp
          rcases lookupGrad_addGrd_cases hl with ⟨rfl, rfl⟩ | hl0
          · exact absurd heq hne
          · exact lookupGrad_addGrd_mono _ _ _ (hI1 n t hl0 hne p hp)
      · next hneq =>
        split at h
        · cases h
        · next v st1 hval =>
          split at h
          · cases h
          · next gr st2 hacc =>
            cases h
            have hI1 : InvTgt g st1 :=
              invTgt_of_grd_eq (value_spec g f hval).2.1 hI
            obtain ⟨hRacc, hEntries⟩ := accum_spec
              (fun a b => (InvTgt g a → InvTgt g b) ∧
                (∀ m t, lookupGrad a m t ≠ none → lookupGrad b m t ≠ none))
              (fun c s => lookupGrad s c out ≠ none)
              (fun s => ⟨id, fun m t ht => ht⟩)
              (fun a b c hab hbc =>
                ⟨fun hAI => hbc.1 (hab.1 hAI),
                 fun m t ht => hbc.2 m t (hab.2 m t ht)⟩)
              (fun j a b hR hj => hR.2 j out hj)
              (fun cs a r0 b _ hcall =>
                ⟨⟨fun hAI => IH hAI hcall, (dods_mono g f hcall).2⟩,
                 by intro he; rw [dods_stores hcall] at he; cases he⟩)
              hacc
            have hI2 : InvTgt g st2 := hRacc.1 hI1
            intro n t hl hne p hp
            rcases lookupGrad_addGrd_cases hl with ⟨rfl, rfl⟩ | hl0
            · exact lookupGrad_addGrd_mono _ _ _ (hEntries p hp)
            · exact lookupGrad_addGrd_mono _ _ _ (hI2 n t hl0 hne p hp)

/-! ## Fuel monotonicity and termination on acyclic graphs -/

theorem seqVals_mono {rec rec' : Nat → St → Option (Arr × St)}
    (h : ∀ p st x, rec p st = some x → rec' p st = some x) :
    ∀ {ps st y}, seqVals rec ps st = some y → seqVals rec' ps st = some y := by
  intro ps
  induction ps with
  | nil => intro st y hy; exact hy
  | cons p ps IH =>
    intro st y hy
    simp only [seqVals] at hy
    split at hy
    · cases hy
    · next v st1 hp =>
      split at hy
      · cases hy
      · next vs st2 hs =>
        cases hy
        simp only [seqVals, h p st (v, st1) hp, IH hs]

theorem accum_mono {rec rec' : Nat → Nat → St → Option (Arr × St)}
    {g : Graph} {out : Nat}
    (h : ∀ c st x, rec c out st = some x → rec' c out st = some x) :
    ∀ {L acc st y}, accum rec g L out acc st = some y →
      accum rec' g L out acc st = some y := by
  intro L
  induction L with
  | nil => intro acc st y hy; exact hy
  | cons cs L IH =>
    intro acc st y hy
    simp only [accum, dOutDParent] at hy
    split at hy
    · cases hy
    · next contrib st1 hc =>
      split at hc
      · cases hc
      · next seed st0 hr =>
        cases hc
        simp only [accum, dOutDParent, h cs.1 st _ hr]
        exact IH hy

theorem value_fuel_mono (g : Graph) :
    ∀ (f : Nat) {i : Nat} {st : St} {x : Arr × St},
      value g f i st = some x → value g (f+1) i st = some x := by
  intro f
  induction f with
  | zero => intro i st x h; cases h
  | succ f IH =>
    intro i st x h
    simp only [value] at h
    split at h
    · next w hw =>
      cases h
      simp only [value_succ, hw]
    · next hnone =>
      split at h
      · cases h
      · next nd hnd =>
        split at h
        · cases h
        · next vs st1 hseq =>
          cases h
          have hseq2 : seqVals (value g (f+1)) nd.parents st = some (vs, st1) :=
            seqVals_mono (fun p st0 y hy => IH hy) hseq
          simp only [value_succ, hnone, hnd, hseq2]

theorem value_fuel_le (g : Graph) {f f' : Nat} (hle : f ≤ f')
    {i : Nat} {st : St} {x : Arr × St}
    (h : value g f i st = some x) : value g f' i st = some x := by
  induction f' with
  | zero =>
    cases Nat.le_zero.mp hle
    exact h
  | succ f2 IH =>
    rcases Nat.lt_or_ge f (f2+1) with hlt | hge
    · exact value_fuel_mono g f2 (IH (Nat.lt_succ_iff.mp hlt))
    · cases Nat.le_antisymm hle hge
      exact h

theorem dods_fuel_mono (g : Graph) :
    ∀ (f : Nat) {i out : Nat} {st : St} {x : Arr × St},
      dOutDSelf g f i out st = some x → dOutDSelf g (f+1) i out st = some x := by
  intro f
  induction f with
  | zero => intro i out st x h; cases h
  | succ f IH =>
    intro i out st x h
    simp only [dOutDSelf] at h
    split at h
    · next w hw =>
      cases h
      simp only [dods_succ, hw]
    · next hmiss =>
      split at h
      · next heq =>
        split at h
        · cases h
        · next v st1 hval =>
          cases h
          have hval2 := value_fuel_mono g f hval
          simp only [dods_succ, hmiss, if_pos heq, hval2]
      · next hneq =>
        split at h
        · cases h
        · next v st1 hval =>
          split at h
          · cases h
          · next gr st2 hacc =>
            cases h
            have hval2 := value_fuel_mono g f hval
            have hacc2 : accum (dOutDSelf g (f+1)) g (childrenOf g i) out
                (zerosLike v) st1 = some (gr, st2) :=
              accum_mono (fun c st0 y hy => IH hy) hacc
            simp only [dods_succ, hmiss, if_neg hneq, hval2, hacc2]

theorem dods_fuel_le (g : Graph) {f f' : Nat} (hle : f ≤ f')
    {i out : Nat} {st : St} {x : Arr × St}
    (h : dOutDSelf g f i out st = some x) : dOutDSelf g f' i out st = some x := by
  induction f' with
  | zero =>
    cases Nat.le_zero.mp hle
    exact h
  | succ f2 IH =>
    rcases Nat.lt_or_ge f (f2+1) with hlt | hge
    · exact dods_fuel_mono g f2 (IH (Nat.lt_succ_iff.mp hlt))
    · cases Nat.le_antisymm hle hge
      exact h

theorem seqVals_total (rec : Nat → St → Option (Arr × St)) (ps : List Nat)
    (hrec : ∀ p ∈ ps, ∀ st, ∃ x, rec p st = some x) :
    ∀ st, ∃ y, seqVals rec ps st = some y := by
  induction ps with
  | nil => intro st; exact ⟨([], st), rfl⟩
  | cons p ps IH =>
    intro st
    obtain ⟨⟨v, st1⟩, h1⟩ := hrec p (List.mem_cons_self p ps) st
    obtain ⟨⟨vs, st2⟩, h2⟩ :=
      IH (fun q hq => hrec q (List.mem_cons_of_mem p hq)) st1
    refine ⟨(v :: vs, st2), ?_⟩
    simp only [seqVals, h1, h2]

theorem accum_total (rec : Nat → Nat → St → Option (Arr × St)) (g : Graph)
    (out : Nat) (L : List (Nat × Nat))
    (hrec : ∀ cs ∈ L, ∀ st, ∃ x, rec cs.1 out st = some x) :
    ∀ acc st, ∃ y, accum rec g L out acc st = some y := by
  induction L with
  | nil => intro acc st; exact ⟨(acc, st), rfl⟩
  | cons cs L IH =>
    intro acc st
    obtain ⟨⟨seed, st1⟩, h1⟩ := hrec cs (List.mem_cons_self cs L) st
    obtain ⟨⟨r, st2⟩, h2⟩ :=
      IH (fun ds hd st0 => hrec ds (List.mem_cons_of_mem cs hd) st0)
        (addArr acc ((nodeOf g cs.1).localGrad cs.2 seed)) st1
    refine ⟨(r, st2), ?_⟩
    simp only [accum, dOutDParent, h1, h2]

/-- On an acyclic graph a `value` read always succeeds given fuel larger
than the node's id. -/
theorem value_total (g : Graph) (hacy : Acyclic g) :
    ∀ (i : Nat), i < g.nodes.length → ∀ st f, i < f →
      ∃ x, value g f i st = some x := by
  intro i
  induction i using Nat.strong_induction_on with
  | _ i IH =>
    intro hi st f hf
    cases f with
    | zero => cases hf
    | succ f =>
      cases hv : st.val i with
      | some v =>
        refine ⟨(v, st), ?_⟩
        simp only [value_succ, hv]
      | none =>
        obtain ⟨nd, hnd⟩ : ∃ nd, g.nodes.get? i = some nd := by
          cases hget : g.nodes.get? i with
          | none =>
            rw [List.get?_eq_none] at hget
            omega
          | some nd => exact ⟨nd, rfl⟩
        have hpar : parentsOf g i = nd.parents := parentsOf_eq_of_get hnd
        obtain ⟨⟨vs, st1⟩, hseq⟩ := seqVals_total (value g f) nd.parents
          (fun p hp st0 => by
            have hpi : p < i := hacy i p (by rw [hpar]; exact hp)
            exact IH p hpi (hpi.trans hi) st0 f (by omega))
          st
        refine ⟨(nd.compute vs,
          { st1 with
            val := upd st1.val i (some (nd.compute vs)),
            cnt := upd st1.cnt i (st1.cnt i + 1) }), ?_⟩
        simp only [value_succ, hv, hnd, hseq]

/-- On an acyclic graph `_d_out_d_self` always succeeds on a valid node
given fuel `2 * n + 1` where `n` is the number of nodes. -/
theorem dods_total (g : Graph) (hacy : Acyclic g) :
    ∀ (k i : Nat), g.nodes.length - i ≤ k → i < g.nodes.length →
      ∀ out st f, g.nodes.length + k < f →
        ∃ x, dOutDSelf g f i out st = some x := by
  intro k
  induction k with
  | zero =>
    intro i hk hi
    omega
  | succ k IH =>
    intro i hk hi out st f hf
    cases f with
    | zero => omega
    | succ f =>
      cases hl : lookupGrad st i out with
      | some w =>
        refine ⟨(w, st), ?_⟩
        simp only [dods_succ, hl]
      | none =>
        obtain ⟨⟨v, st1⟩, hval⟩ := value_total g hacy i hi st f (by omega)
        by_cases hio : i = out
        · refine ⟨(onesLike v, addGrd st1 i out (onesLike v)), ?_⟩
          simp only [dods_succ, hl, if_pos hio, hval]
        · obtain ⟨⟨gr, st2⟩, hacc⟩ := accum_total (dOutDSelf g f) g out
            (childrenOf g i)
            (fun cs hcs st0 => by
              have hc1 : cs.1 < g.nodes.length := by
                obtain ⟨c, s⟩ := cs
                exact (mem_childrenOf.mp hcs).1
              have hic : i < cs.1 :=
                hacy cs.1 i (parent_of_mem_childrenOf hcs)
              exact IH cs.1 (by omega) hc1 out st0 f (by omega))
            (zerosLike v) st1
          refine ⟨(gr, addGrd st2 i out gr), ?_⟩
          simp only [dods_succ, hl, if_neg hio, hval, hacc]

theorem parentsOf_of_ge {g : Graph} {i : Nat} (h : g.nodes.length ≤ i) :
    parentsOf g i = [] := by
  unfold parentsOf
  rw [List.get?_eq_none.mpr h]
  rfl

/-- Acyclicity need only be checked on the graph's actual nodes. -/
theorem acyclic_of_lt {g : Graph}
    (h : ∀ i, i < g.nodes.length → ∀ p ∈ parentsOf g i, p < i) :
    Acyclic g := by
  intro i p hp
  by_cases hi : i < g.nodes.length
  · exact h i hi p hp
  · rw [parentsOf_of_ge (Nat.le_of_not_lt hi)] at hp
    cases hp

/-! ## Refinement of the memoized pass against the spec-side recursion -/

theorem lookupGrad_addGrd (st : St) (i o : Nat) (w : Arr) (m t : Nat) :
    lookupGrad (addGrd st i o w) m t =
      if m = i ∧ t = o then some w else lookupGrad st m t := by
  by_cases hm : m = i
  · by_cases ht : t = o
    · rw [if_pos ⟨hm, ht⟩, hm, ht]
      exact lookupGrad_addGrd_self st i o w
    · rw [if_neg (fun hand => ht hand.2)]
      simp only [lookupGrad, addGrd, hm]
      rw [show (upd st.grd i ((o, w) :: st.grd i)) i = (o, w) :: st.grd i
        from upd_self _ _ _]
      exact lookup_cons_ne ht w _
  · rw [if_neg (fun hand => hm hand.1)]
    simp only [lookupGrad, addGrd]
    rw [show (upd st.grd i ((o, w) :: st.grd i)) m = st.grd m
      from upd_ne _ hm _]

/-- A read of an already-cached value returns it and leaves the state
untouched. -/
theorem value_cached {g : Graph} {f i : Nat} {st : St} {w : Arr}
    (hw : st.val i = some w) {x : Arr × St}
    (h : value g f i st = some x) : x = (w, st) := by
  cases f with
  | zero => cases h
  | succ f =>
    rw [value_succ, hw] at h
    cases h
    rfl

theorem dSpecSum_mono {g : Graph} {rec rec' : Nat → Nat → Option Arr}
    (h : ∀ c o r, rec c o = some r → rec' c o = some r) :
    ∀ {L : List (Nat × Nat)} {out : Nat} {acc r : Arr},
      dSpecSum g rec L out acc = some r →
      dSpecSum g rec' L out acc = some r := by
  intro L
  induction L with
  | nil => intro out acc r hr; exact hr
  | cons cs L IH =>
    intro out acc r hr
    simp only [dSpecSum] at hr
    split at hr
    · cases hr
    · next seed hseed =>
      simp only [dSpecSum, h cs.1 out seed hseed]
      exact IH hr

theorem dSpecD_succ_mono (g : Graph) (vals : Nat → Arr) :
    ∀ (F : Nat) {i out : Nat} {r : Arr},
      dSpecD g vals F i out = some r → dSpecD g vals (F+1) i out = some r := by
  intro F
  induction F with
  | zero => intro i out r h; cases h
  | succ F IH =>
    intro i out r h
    simp only [dSpecD] at h ⊢
    split at h
    · rw [if_pos ‹i = out›] at *
      exact h
    · rw [if_neg ‹¬ i = out›]
      exact dSpecSum_mono (fun c o r0 h0 => IH h0) h

theorem dSpecD_le_mono (g : Graph) (vals : Nat → Arr) {F F' : Nat}
    (hle : F ≤ F') {i out : Nat} {r : Arr}
    (h : dSpecD g vals F i out = some r) : dSpecD g vals F' i out = some r := by
  induction F' with
  | zero =>
    cases Nat.le_zero.mp hle
    exact h
  | succ F2 IH =>
    rcases Nat.lt_or_ge F (F2+1) with hlt | hge
    · exact dSpecD_succ_mono g vals F2 (IH (Nat.lt_succ_iff.mp hlt))
    · cases Nat.le_antisymm hle hge
      exact h

theorem accum_dspec {g : Graph} {vals : Nat → Arr} {out : Nat}
    {rec : Nat → Nat → St → Option (Arr × St)}
    (hrec : ∀ {c : Nat} {st : St} {r : Arr} {st' : St},
      ValsEq vals st → GradsSpec g vals out st → rec c out st = some (r, st') →
      ValsEq vals st' ∧ GradsSpec g vals out st' ∧
        ∃ F, dSpecD g vals F c out = some r) :
    ∀ {L : List (Nat × Nat)} {acc : Arr} {st : St} {r : Arr} {st' : St},
      ValsEq vals st → GradsSpec g vals out st →
      accum rec g L out acc st = some (r, st') →
      ValsEq vals st' ∧ GradsSpec g vals out st' ∧
        ∃ F, dSpecSum g (dSpecD g vals F) L out acc = some r := by
  intro L
  induction L with
  | nil =>
    intro acc st r st' hV hG h
    cases h
    exact ⟨hV, hG, ⟨0, rfl⟩⟩
  | cons cs L IH =>
    intro acc st r st' hV hG h
    simp only [accum, dOutDParent] at h
    split at h
    · cases h
    · next contrib st1 hc =>
      split at hc
      · cases hc
      · next seed st0 hr =>
        cases hc
        obtain ⟨hV1, hG1, F1, hF1⟩ := hrec hV hG hr
        obtain ⟨hV2, hG2, F2, hF2⟩ := IH hV1 hG1 h
        refine ⟨hV2, hG2, max F1 F2, ?_⟩
        have hF1' : dSpecD g vals (max F1 F2) cs.1 out = some seed :=
          dSpecD_le_mono g vals (Nat.le_max_left F1 F2) hF1
        have hF2' : dSpecSum g (dSpecD g vals (max F1 F2)) L out
            (addArr acc ((nodeOf g cs.1).localGrad cs.2 seed)) = some r :=
          dSpecSum_mono
            (fun c o r0 h0 =>
              dSpecD_le_mono g vals (Nat.le_max_right F1 F2) h0) hF2
        simp only [dSpecSum, hF1']
        exact hF2'

/-- With every value cached at the valuation `vals` and every existing
gradient entry for `out` already agreeing with the spec-side recursion,
`_d_out_d_self` returns exactly a value of the spec-side recursion and
keeps the agreement. -/
theorem dods_dspec (g : Graph) (vals : Nat → Arr) :
    ∀ (f : Nat) {i out : Nat} {st : St} {r : Arr} {st' : St},
      ValsEq vals st → GradsSpec g vals out st →
      dOutDSelf g f i out st = some (r, st') →
      ValsEq vals st' ∧ GradsSpec g vals out st' ∧
        ∃ F, dSpecD g vals F i out = some r := by
  intro f
  induction f with
  | zero => intro i out st r st' _ _ h; cases h
  | succ f IH =>
    intro i out st r st' hV hG h
    simp only [dOutDSelf] at h
    split at h
    · next w hw =>
      cases h
      exact ⟨hV, hG, hG i r hw⟩
    · next hmiss =>
      split at h
      · next heq =>
        split at h
        · cases h
        · next v st1 hval =>
          cases h
          obtain ⟨rfl, rfl⟩ : (v, st1) = (vals i, st) := by
            have := value_cached (hV i) hval
            rw [this]
          refine ⟨fun j => hV j, ?_, ⟨1, ?_⟩⟩
          · intro j w hw
            rw [lookupGrad_addGrd] at hw
            split at hw
            · next hand =>
              cases hw
              refine ⟨1, ?_⟩
              simp only [dSpecD, if_pos, hand.1, heq]
            · exact hG j w hw
          · rw [heq]
            simp [dSpecD]
      · next hneq =>
        split at h
        · cases h
        · next v st1 hval =>
          split at h
          · cases h
          · next gr st2 hacc =>
            cases h
            obtain ⟨rfl, rfl⟩ : (v, st1) = (vals i, st) := by
              have := value_cached (hV i) hval
              rw [this]
            obtain ⟨hV2, hG2, F, hF⟩ :=
              accum_dspec (fun {c st0 r0 stb} hVa hGa hcall =>
                IH hVa hGa hcall) hV hG hacc
            refine ⟨fun j => hV2 j, ?_, ⟨F+1, ?_⟩⟩
            · intro j w hw
              rw [lookupGrad_addGrd] at hw
              split at hw
              · next hand =>
                cases hw
                refine ⟨F+1, ?_⟩
                rw [hand.1]
                simp only [dSpecD, if_neg hneq]
                exact hF
              · exact hG2 j w hw
            · simp only [dSpecD, if_neg hneq]
              exact hF

/-! ## The claims -/

/-- Claim C3: for every node, two consecutive `value` reads with no
intervening write return the identical cached result (the second read
succeeds with fuel 1, so without recursing, and returns the same value and
the very same state — in particular no `_compute_value` counter moves),
and `_compute_value` is invoked at most once per cache epoch: a read
leaves the counter of every cached node and of every node that stays
uncached unchanged, and bumps each newly computed node's counter by
exactly one.  Acyclicity holds by construction (parents exist before their
children). -/
theorem claim_c3_memoization {g : Graph} (hacy : Acyclic g) {f j : Nat}
    {st : St} {v : Arr} {st' : St} (h : value g f j st = some (v, st')) :
    value g 1 j st' = some (v, st') ∧
    (∀ m w, st.val m = some w → st'.cnt m = st.cnt m) ∧
    (∀ m, st'.cnt m ≤ st.cnt m + (if st.val m = none then 1 else 0)) := by
  obtain ⟨hmono, hgrd, hcache⟩ := value_spec g f h
  obtain ⟨cS, cN, cO⟩ := value_cnt g hacy f h
  refine ⟨?_, cS, ?_⟩
  · rw [value_succ, hcache]
  · intro m
    cases hm : st.val m with
    | some w =>
      have hcnt := cS m w hm
      rw [if_neg (fun he => Option.noConfusion he)]
      omega
    | none =>
      rw [if_pos rfl]
      cases hm' : st'.val m with
      | none =>
        have hcnt := cN m hm hm'
        omega
      | some u =>
        have hcnt := cO m hm (by rw [hm']; exact fun he => Option.noConfusion he)
        omega

theorem claim_c3_witness :
    Acyclic cg3 ∧
    value cg3 9 2 cgSt0 = some ([12], resSt (value cg3 9 2 cgSt0)) ∧
    value cg3 1 2 (resSt (value cg3 9 2 cgSt0)) =
      some ([12], resSt (value cg3 9 2 cgSt0)) ∧
    (∀ m, (resSt (value cg3 9 2 cgSt0)).cnt m ≤
      cgSt0.cnt m + (if cgSt0.val m = none then 1 else 0)) := by
  have hacy : Acyclic cg3 := acyclic_of_lt (by decide)
  have h : value cg3 9 2 cgSt0 = some ([12], resSt (value cg3 9 2 cgSt0)) := rfl
  obtain ⟨h1, -, h3⟩ := claim_c3_memoization hacy h
  exact ⟨hacy, h, h1, h3⟩

/-- Claim C5: `node.grad(node)` — differentiating a node with respect to
itself — returns an array of ones shaped like `node.shape` (the length of
the node's value), whenever no entry for the node is cached and the value
read succeeds. -/
theorem claim_c5_self_grad_ones {g : Graph} {f n : Nat} {st : St} {v : Arr}
    {st1 : St} (hmiss : lookupGrad st n n = none)
    (hval : value g f n st = some (v, st1)) :
    grad g (f+1) n n st = some (onesLike v, addGrd st1 n n (onesLike v)) := by
  show dOutDSelf g (f+1) n n st = _
  simp only [dods_succ, hmiss, if_pos, hval]

theorem claim_c5_witness :
    lookupGrad cgSt0 1 1 = none ∧
    value cg3 9 1 cgSt0 = some ([4], resSt (value cg3 9 1 cgSt0)) ∧
    grad cg3 10 1 1 cgSt0 =
      some ([1], addGrd (resSt (value cg3 9 1 cgSt0)) 1 1 [1]) :=
  ⟨rfl, rfl,
    @claim_c5_self_grad_ones cg3 9 1 cgSt0 [4]
      (resSt (value cg3 9 1 cgSt0)) rfl rfl⟩

/-- Claim C6: a computed gradient entry is stored in the gradient
dictionary before being returned, and a second `grad` query for the same
pair returns the stored entry with fuel 1 — that is, without recursing
into children and without touching the state. -/
theorem claim_c6_gradient_reuse {g : Graph} {f self other : Nat} {st : St}
    {r : Arr} {st' : St} (h : grad g f self other st = some (r, st')) :
    lookupGrad st' other self = some r ∧
    grad g 1 self other st' = some (r, st') := by
  have hs : lookupGrad st' other self = some r := dods_stores h
  refine ⟨hs, ?_⟩
  show dOutDSelf g 1 other self st' = some (r, st')
  rw [dods_succ, hs]

theorem claim_c6_witness :
    grad cg3 9 2 0 cgSt0 = some ([6], resSt (grad cg3 9 2 0 cgSt0)) ∧
    lookupGrad (resSt (grad cg3 9 2 0 cgSt0)) 0 2 = some [6] ∧
    grad cg3 1 2 0 (resSt (grad cg3 9 2 0 cgSt0)) =
      some ([6], resSt (grad cg3 9 2 0 cgSt0)) := by
  have h : grad cg3 9 2 0 cgSt0 = some ([6], resSt (grad cg3 9 2 0 cgSt0)) := rfl
  obtain ⟨h1, h2⟩ := claim_c6_gradient_reuse h
  exact ⟨h, h1, h2⟩

/-- Claim C7: invalidating a node whose cached value is already absent is
a no-op: it succeeds with fuel 1 (so without recursing into children or
parents) and returns the state unchanged — every node's cached value and
cached gradients, including every other node's, are untouched. -/
theorem claim_c7_idempotent_invalidation {g : Graph} {i : Nat} {st : St}
    (h : st.val i = none) : clearValueCache g 1 i st = some st := by
  show clearValueCache g (0+1) i st = some st
  simp only [clearValueCache, h]

theorem claim_c7_witness :
    cgSt0.val 2 = none ∧ clearValueCache cg3 1 2 cgSt0 = some cgSt0 :=
  ⟨rfl, claim_c7_idempotent_invalidation rfl⟩

/-- Claim C10: a completed `_d_out_d_self` call leaves the node's cached
value populated — on a cache miss because both branches read `shape`,
which reads `value`; on a cache hit because a reachable state in which a
gradient entry exists has the value cached (entries are only created after
the value read, and a value clear also empties the dictionary), which is
the stated hypothesis. -/
theorem claim_c10_grad_forces_value {g : Graph} {f i out : Nat} {st : St}
    {r : Arr} {st' : St}
    (hinv : st.grd i ≠ [] → st.val i ≠ none)
    (h : dOutDSelf g f i out st = some (r, st')) : st'.val i ≠ none := by
  cases f with
  | zero => cases h
  | succ f =>
    simp only [dOutDSelf] at h
    split at h
    · next w hw =>
      cases h
      have hne : lookupGrad st i out ≠ none := by
        rw [hw]
        exact fun he => Option.noConfusion he
      exact hinv (lookupGrad_ne_nil hne)
    · next hmiss =>
      split at h
      · split at h
        · cases h
        · next v st1 hval =>
          cases h
          have hv1 : st1.val i = some v := (value_spec g f hval).2.2
          intro he
          rw [show (addGrd st1 i out (onesLike v)).val = st1.val from rfl,
            hv1] at he
          cases he
      · split at h
        · cases h
        · next v st1 hval =>
          split at h
          · cases h
          · next gr st2 hacc =>
            cases h
            have hv1 : st1.val i = some v := (value_spec g f hval).2.2
            obtain ⟨hRacc, -⟩ := accum_spec
              (fun a b => ∀ m w, a.val m = some w → b.val m = some w)
              (fun _ _ => True)
              (fun s m w hw => hw)
              (fun a b c hab hbc m w hw => hbc m w (hab m w hw))
              (fun _ _ _ _ _ => trivial)
              (fun cs a r0 b _ hcall => ⟨(dods_mono g f hcall).1, trivial⟩)
              hacc
            have hv2 : st2.val i = some v := hRacc i v hv1
            intro he
            rw [show (addGrd st2 i out r).val = st2.val from rfl, hv2] at he
            cases he

theorem claim_c10_witness :
    (cgSt0.grd 0 ≠ [] → cgSt0.val 0 ≠ none) ∧
    dOutDSelf cg3 9 0 2 cgSt0 = some ([6], resSt (dOutDSelf cg3 9 0 2 cgSt0)) ∧
    (resSt (dOutDSelf cg3 9 0 2 cgSt0)).val 0 ≠ none := by
  have h : dOutDSelf cg3 9 0 2 cgSt0 =
      some ([6], resSt (dOutDSelf cg3 9 0 2 cgSt0)) := rfl
  have hinv : cgSt0.grd 0 ≠ [] → cgSt0.val 0 ≠ none := by decide
  exact ⟨hinv, h, claim_c10_grad_forces_value hinv h⟩

/-- Claim C4: in a fresh gradient epoch (no cached gradients) with every
value cached at the valuation `vals`, the derivative that
`_d_out_d_self` computes for a node `i` distinct from the target equals
the specification's sum over `i`'s `(child, slot)` pairs of
`child.localGradient(slot, child.derivativeOfTarget(target))` — the
children's derivatives being the spec-side recursion `dSpecD` — starting
from zeros shaped like `i`; fan-out over several consumers is the several
summands of this sum. -/
theorem claim_c4_gradient_sum {g : Graph} {vals : Nat → Arr} {f i out : Nat}
    {st : St} {r : Arr} {st' : St}
    (hvals : ValsEq vals st)
    (hfresh : ∀ j, st.grd j = [])
    (hneq : i ≠ out)
    (h : dOutDSelf g f i out st = some (r, st')) :
    ∃ F, dSpecSum g (dSpecD g vals F) (childrenOf g i) out
        (zerosLike (vals i)) = some r ∧
      dSpecD g vals (F+1) i out = some r := by
  have hG : GradsSpec g vals out st := by
    intro j w hw
    rw [show lookupGrad st j out = none from by
      simp [lookupGrad, hfresh j, List.lookup]] at hw
    cases hw
  obtain ⟨-, -, F0, hF0⟩ := dods_dspec g vals f hvals hG h
  cases F0 with
  | zero => cases hF0
  | succ F =>
    rw [show dSpecD g vals (F+1) i out
      = dSpecSum g (dSpecD g vals F) (childrenOf g i) out
          (zerosLike (vals i)) from by simp only [dSpecD, if_neg hneq]] at hF0
    exact ⟨F, hF0, by simp only [dSpecD, if_neg hneq]; exact hF0⟩

theorem claim_c4_witness :
    ValsEq c4vals cgStAll ∧
    (∀ j, cgStAll.grd j = []) ∧
    dOutDSelf cg3 5 0 2 cgStAll =
      some ([6], resSt (dOutDSelf cg3 5 0 2 cgStAll)) ∧
    ∃ F, dSpecSum cg3 (dSpecD cg3 c4vals F) (childrenOf cg3 0) 2
        (zerosLike (c4vals 0)) = some [6] ∧
      dSpecD cg3 c4vals (F+1) 0 2 = some [6] := by
  have hvals : ValsEq c4vals cgStAll := fun j => rfl
  have hfresh : ∀ j, cgStAll.grd j = [] := fun j => rfl
  have h : dOutDSelf cg3 5 0 2 cgStAll =
      some ([6], resSt (dOutDSelf cg3 5 0 2 cgStAll)) := rfl
  exact ⟨hvals, hfresh, h,
    claim_c4_gradient_sum hvals hfresh (by decide) h⟩

/-- Claim C8: `grad(other)` with a non-ancestor `other` raises no error —
on an acyclic graph every gradient request on a valid node succeeds given
enough fuel, whatever the target; and when `other` has no children and is
distinct from the receiver, the call returns an all-zero array shaped
like `other.shape` (the empty accumulation over its children). -/
theorem claim_c8_non_ancestor_grad {g : Graph} (hacy : Acyclic g)
    {self other : Nat} (hlt : other < g.nodes.length) (st : St) :
    (∃ x, grad g (2 * g.nodes.length + 1) self other st = some x) ∧
    (other ≠ self → childrenOf g other = [] →
      lookupGrad st other self = none →
      ∀ {f : Nat} {v : Arr} {st1 : St}, value g f other st = some (v, st1) →
        grad g (f+1) self other st =
          some (zerosLike v, addGrd st1 other self (zerosLike v))) := by
  constructor
  · have := dods_total g hacy (g.nodes.length - other) other
      (Nat.le_refl _) hlt self st (2 * g.nodes.length + 1) (by omega)
    exact this
  · intro hneq hchd hmiss f v st1 hval
    show dOutDSelf g (f+1) other self st = _
    rw [dods_succ, hmiss]
    rw [if_neg hneq, hval, hchd]
    rfl

theorem claim_c8_witness :
    Acyclic cg3 ∧ 2 < cg3.nodes.length ∧
    (∃ x, grad cg3 7 0 2 cgSt0 = some x) ∧
    value cg3 9 2 cgSt0 = some ([12], resSt (value cg3 9 2 cgSt0)) ∧
    grad cg3 10 0 2 cgSt0 =
      some ([0], addGrd (resSt (value cg3 9 2 cgSt0)) 2 0 [0]) := by
  have hacy : Acyclic cg3 := acyclic_of_lt (by decide)
  have hlt : 2 < cg3.nodes.length := by decide
  obtain ⟨h1, h2⟩ := claim_c8_non_ancestor_grad hacy hlt cgSt0
  have hv : value cg3 9 2 cgSt0 = some ([12], resSt (value cg3 9 2 cgSt0)) := rfl
  exact ⟨hacy, hlt, h1, hv, h2 (by decide) (by decide) rfl hv⟩

/-- Claim C9, counterexample: the unamended invariant — a node with a
non-empty gradient dictionary has children with non-empty dictionaries —
is not preserved by the core's own operations.  On the chain
x(0) → y(1) → z(2), starting from the reachable state with `x` fed and no
gradients (where the invariant holds trivially), the public call
`y.grad(x)` stores an entry on `y` through the base case without visiting
`y`'s child `z`, so afterwards `y`'s dictionary is non-empty while `z`'s
is empty. -/
theorem claim_c9_counterexample :
    InvOrigAll cg3 cgSt0 ∧
    grad cg3 9 1 0 cgSt0 = some ([2], cgStBad) ∧
    ¬ InvOrigAll cg3 cgStBad := by
  refine ⟨?_, rfl, ?_⟩
  · intro n hn
    exact absurd rfl hn
  · intro hI
    exact absurd (hI 1 (by decide) (2, 0) (by decide)) (by decide)

/-- Claim C9, amended: every operation of the core preserves the
per-target invariant: if a node `n` holds a gradient entry for a target
`t` with `n ≠ t`, then every child recorded in `n`'s children list also
holds an entry for `t`.  (The base case of `_d_out_d_self` stores an
entry on the target itself without visiting its children, so the target
must be excluded; this per-target form is what makes the guarded
recursive gradient-cache clear reach all stale ancestors, since clearing
a node first clears its parents.) -/
theorem claim_c9_amended {g : Graph} {st st' : St}
    (hI : InvTgt g st) (hstep : StepK g st st') : InvTgt g st' := by
  rcases hstep with ⟨f, i, w, hset⟩ | ⟨f, i, r, hval⟩ | ⟨f, s, o, r, hgr⟩ |
    ⟨f, i, hcl⟩ | ⟨f, i, hcg⟩
  · obtain ⟨st1, hclear, rfl⟩ := valueSet_decomp hset
    have hI1 := invTgt_of_rvrel (clearValueCache_spec g f hclear).1 hI
    exact invTgt_of_grd_eq rfl hI1
  · exact invTgt_of_grd_eq (value_spec g f hval).2.1 hI
  · exact dods_invTgt g f hI hgr
  · exact invTgt_of_rvrel (clearValueCache_spec g f hcl).1 hI
  · exact invTgt_of_rvrel (clearGradCache_spec g f hcg).1.1 hI

theorem claim_c9_witness :
    InvTgt cg3 initSt ∧ StepK cg3 initSt cgSt0 ∧ InvTgt cg3 cgSt0 := by
  have hI : InvTgt cg3 initSt := by
    intro n t hl
    exact absurd rfl hl
  have hstep : StepK cg3 initSt cgSt0 := Or.inl ⟨1, 0, [2], rfl⟩
  exact ⟨hI, hstep, claim_c9_amended hI hstep⟩

/-- Claim C2, counterexample: overwriting a node's value while its value
is cached does not clear the gradient caches of all its ancestors.  In
the reachable state `cgStPre` (x fed, `y.grad(x)` computed, `z.value`
read), `z`'s value is cached and its gradient dictionary is empty, so the
guarded recursive clear stops at `z` and its parent `y` keeps a cached
gradient entry after the write. -/
theorem claim_c2_counterexample :
    cgStPre.val 2 ≠ none ∧
    valueSet cg3 9 2 [7] cgStPre = some cgStPost ∧
    1 ∈ parentsOf cg3 2 ∧
    cgStPost.grd 1 ≠ [] :=
  ⟨by decide, rfl, by decide, by decide⟩

/-- Claim C2, amended: overwriting a node's value while a cached value is
present clears the node's own gradient dictionary, and recursively clears
the dictionaries of its ancestors along every parent chain whose links
all had non-empty dictionaries — the recursion stops at a node whose
dictionary is already empty. -/
theorem claim_c2_amended {g : Graph} {f n : Nat} {v : Arr} {st st' : St}
    (hval : st.val n ≠ none)
    (hset : valueSet g f n v st = some st')
    {l : List Nat} (hhead : l.head? = some n)
    (hchain : List.Chain' (fun a b => b ∈ parentsOf g a) l)
    (hdrop : ∀ m ∈ l.dropLast, st.grd m ≠ []) :
    ∀ m ∈ l, st'.grd m = [] := by
  obtain ⟨st1, hclear, rfl⟩ := valueSet_decomp hset
  obtain ⟨hR, hv1, himp⟩ := clearValueCache_spec g f hclear
  have hn : st1.grd n = [] := himp hval
  have hres := grd_clear_chain g st st1 hR.2.2.2.1 l hchain hdrop
    (fun n0 h0 => by
      rw [hhead] at h0
      cases h0
      exact hn)
  intro m hm
  exact hres m hm

theorem claim_c2_witness :
    cgStW.val 2 ≠ none ∧
    valueSet cg3 9 2 [9] cgStW = some cgStWres ∧
    List.Chain' (fun a b => b ∈ parentsOf cg3 a) [2, 1, 0] ∧
    (∀ m ∈ List.dropLast [2, 1, 0], cgStW.grd m ≠ []) ∧
    ∀ m ∈ [2, 1, 0], cgStWres.grd m = [] := by
  have hchain : List.Chain' (fun a b => b ∈ parentsOf cg3 a) [2, 1, 0] :=
    List.chain'_cons.mpr ⟨by decide,
      List.chain'_cons.mpr ⟨by decide, List.chain'_singleton 0⟩⟩
  have hdrop : ∀ m ∈ List.dropLast [2, 1, 0], cgStW.grd m ≠ [] := by decide
  have hset : valueSet cg3 9 2 [9] cgStW = some cgStWres := rfl
  have hhead : List.head? [2, 1, 0] = some 2 := rfl
  exact ⟨by decide, hset, hchain, hdrop,
    claim_c2_amended (by decide) hset hhead hchain hdrop⟩

/-- Claim C1: on the chain A(0) → B(1) → C(2) with every value cached,
overwriting A's value through the setter clears B's and C's cached
values and the gradient dictionaries of A and B, stores the new value on
A, and a subsequent read of C recomputes it from A's new value through
the extension points: `fC [fB [newv]]`. -/
theorem claim_c1_invalidation_cascade (f0 fB fC : List Arr → Arr)
    (l0 lB lC : Nat → Arr → Arr) (f : Nat) (st : St) (a b c newv : Arr)
    (h0 : st.val 0 = some a) (h1 : st.val 1 = some b)
    (h2 : st.val 2 = some c) {st' : St}
    (hset : valueSet (chainG f0 fB fC l0 lB lC) f 0 newv st = some st') :
    st'.val 0 = some newv ∧ st'.val 1 = none ∧ st'.val 2 = none ∧
    st'.grd 0 = [] ∧ st'.grd 1 = [] ∧
    ∃ stf, value (chainG f0 fB fC l0 lB lC) 4 2 st' =
      some (fC [fB [newv]], stf) := by
  obtain ⟨st1, hclear, rfl⟩ := valueSet_decomp hset
  obtain ⟨hR, hv1zero, himp⟩ :=
    clearValueCache_spec (chainG f0 fB fC l0 lB lC) f hclear
  have hch0 : childIds (chainG f0 fB fC l0 lB lC) 0 = [1] := rfl
  have hch1 : childIds (chainG f0 fB fC l0 lB lC) 1 = [2] := rfl
  have hne0 : st.val 0 ≠ none := by
    rw [h0]
    exact fun he => Option.noConfusion he
  have hne1 : st.val 1 ≠ none := by
    rw [h1]
    exact fun he => Option.noConfusion he
  have hb1 : st1.val 1 = none := by
    refine hR.2.2.1 0 hne0 hv1zero 1 ?_
    rw [hch0]
    exact List.mem_singleton.mpr rfl
  have hb2 : st1.val 2 = none := by
    refine hR.2.2.1 1 hne1 hb1 2 ?_
    rw [hch1]
    exact List.mem_singleton.mpr rfl
  have hg0 : st1.grd 0 = [] := himp hne0
  have hg1 : st1.grd 1 = [] := hR.2.2.2.2.1 1 hne1 hb1
  have hv0' : ({ st1 with val := upd st1.val 0 (some newv) } : St).val 0
      = some newv := by
    show upd st1.val 0 (some newv) 0 = some newv
    exact upd_self _ _ _
  have hv1' : ({ st1 with val := upd st1.val 0 (some newv) } : St).val 1
      = none := by
    rw [show ({ st1 with val := upd st1.val 0 (some newv) } : St).val 1
      = st1.val 1 from upd_ne st1.val one_ne_zero (some newv)]
    exact hb1
  have hv2' : ({ st1 with val := upd st1.val 0 (some newv) } : St).val 2
      = none := by
    rw [show ({ st1 with val := upd st1.val 0 (some newv) } : St).val 2
      = st1.val 2 from upd_ne st1.val two_ne_zero (some newv)]
    exact hb2
  refine ⟨hv0', hv1', hv2', hg0, hg1, ?_⟩
  have hv0b : upd st1.val 0 (some newv) 0 = some newv := hv0'
  have hv1b : upd st1.val 0 (some newv) 1 = none := hv1'
  have hv2b : upd st1.val 0 (some newv) 2 = none := hv2'
  have hget1 : (chainG f0 fB fC l0 lB lC).nodes.get? 1
      = some ⟨[0], fB, lB⟩ := rfl
  have hget2 : (chainG f0 fB fC l0 lB lC).nodes.get? 2
      = some ⟨[1], fC, lC⟩ := rfl
  have e0 : value (chainG f0 fB fC l0 lB lC) 2 0
      { st1 with val := upd st1.val 0 (some newv) }
      = some (newv, { st1 with val := upd st1.val 0 (some newv) }) := by
    rw [value_succ, hv0']
  have e1 : value (chainG f0 fB fC l0 lB lC) 3 1
      { st1 with val := upd st1.val 0 (some newv) }
      = some (fB [newv],
        { st1 with
          val := upd (upd st1.val 0 (some newv)) 1 (some (fB [newv])),
          cnt := upd st1.cnt 1 (st1.cnt 1 + 1) }) := by
    rw [value_succ]
    simp only [hv1b, hget1, seqVals, e0]
  refine ⟨{ st1 with
    val := upd (upd (upd st1.val 0 (some newv)) 1 (some (fB [newv]))) 2
      (some (fC [fB [newv]])),
    cnt := upd (upd st1.cnt 1 (st1.cnt 1 + 1)) 2
      ((upd st1.cnt 1 (st1.cnt 1 + 1)) 2 + 1) }, ?_⟩
  rw [value_succ]
  simp only [hv2b, hget2, seqVals, e1]

theorem claim_c1_witness :
    cgStAll.val 0 = some [2] ∧ cgStAll.val 1 = some [4] ∧
    cgStAll.val 2 = some [12] ∧
    valueSet cg3 10 0 [5] cgStAll = some c1res ∧
    (c1res.val 0 = some [5] ∧ c1res.val 1 = none ∧ c1res.val 2 = none ∧
     c1res.grd 0 = [] ∧ c1res.grd 1 = [] ∧
     ∃ stf, value cg3 4 2 c1res = some ([30], stf)) := by
  have hset : valueSet cg3 10 0 [5] cgStAll = some c1res := rfl
  exact ⟨rfl, rfl, rfl, hset,
    claim_c1_invalidation_cascade
      (fun _ => []) (fun vs => (vs.getD 0 []).map (fun a => 2 * a))
      (fun vs => (vs.getD 0 []).map (fun a => 3 * a))
      (fun _ s => s) (fun _ s => s.map (fun a => 2 * a))
      (fun _ s => s.map (fun a => 3 * a))
      10 cgStAll [2] [4] [12] [5] rfl rfl rfl hset⟩

end Kayak
